import Mathlib

set_option maxHeartbeats 1000000

/-!
Shallow embedding of the pm install-verification pipeline (src/pkg/install.go).

Text (Go strings / file bytes) is modelled as List Char.  External
collaborators (catalog db, filesystem, HTTP transport, keyring, SHA-256)
are parameters collected in an Env record; the SHA-256 hex digest of a
byte stream is an abstract function hashHex.  Archives are tapes of named
entries, as in the tar format the code reads.  Each pipeline function
additionally reports how many underlying package-file handles it opened
and closed (mirroring os.Open / Close calls) and a trace of observable
events (HTTP fetches, keyring verifications, content-digest computations).
-/

def str (s : String) : List Char := s.data

def nl : Char := Char.ofNat 10

def tab : Char := Char.ofNat 9

def cr : Char := Char.ofNat 13

def mfName : List Char := str "manifest.sha256"

def sigName : List Char := str "manifest.sha256.asc"

structure TarEntry where
  name : List Char
  isDir : Bool
  body : List Char
deriving DecidableEq

abbrev Archive := List TarEntry

structure Meta where
  pkg : List Char
  url : List Char
deriving DecidableEq

structure Response where
  status : Nat
  body : Archive
deriving DecidableEq

inductive Err where
  | loadAvail
  | notInstallable
  | mkdirFail
  | notDirErr
  | transport
  | createErr
  | copyErr
  | closeBody
  | notFound (name : List Char)
  | verifyFail
  | manifestFormat (n : Nat)
  | extraFile (name : List Char)
  | checksumIncorrect (name : List Char)
  | nyi
  | wrap (ctx : String) (e : Err)
deriving DecidableEq

inductive Event where
  | httpGet (url : List Char)
  | fetched (pkg : List Char)
  | trustCheck (pkg : List Char)
  | trustOK (pkg : List Char)
  | digest (pkg : List Char) (name : List Char)
  | commit (pkg : List Char)
deriving DecidableEq

instance {ε α : Type} [DecidableEq ε] [DecidableEq α] : DecidableEq (Except ε α)
  | .ok a, .ok b =>
    if h : a = b then .isTrue (h ▸ rfl) else .isFalse (fun hc => h (Except.ok.inj hc))
  | .ok _, .error _ => .isFalse (fun hc => Except.noConfusion hc)
  | .error _, .ok _ => .isFalse (fun hc => Except.noConfusion hc)
  | .error a, .error b =>
    if h : a = b then .isTrue (h ▸ rfl) else .isFalse (fun hc => h (Except.error.inj hc))

structure Env where
  loadOK : Bool
  installable : List (List Char) → Except Unit (List Meta)
  cacheExists : Bool
  mkdirOK : Bool
  cacheIsDir : Bool
  http : List Char → Option Response
  createOK : List Char → Bool
  copyOK : List Char → Bool
  closeBodyOK : List Char → Bool
  verify : List Char → List Char → Bool
  hashHex : List Char → List Char

/-- strings.Split with a one-character separator (Go: Split of the empty
string is a singleton list holding the empty string). -/
def splitOn (sep : Char) : List Char → List (List Char)
  | [] => [[]]
  | c :: rest =>
    match splitOn sep rest with
    | [] => [[]]
    | t :: ts => if c = sep then [] :: t :: ts else (c :: t) :: ts

/-- bufio.ScanLines strips one trailing carriage return from a line. -/
def dropCR (l : List Char) : List Char :=
  if l.getLast? = some cr then l.dropLast else l

/-- The token sequence produced by bufio.Scanner with ScanLines: one token
per line, the newline terminating the final line produces no empty token. -/
def scanLines (t : List Char) : List (List Char) :=
  if t = [] then []
  else if t.getLast? = some nl then (splitOn nl t).dropLast
  else splitOn nl t

/-- The manifest-scanning loop of verifyPkgContents: each line must split
into exactly two tab-separated fields, else the whole parse fails; the
accumulator plays the Go map cs, insertion consing so that List.lookup
returns the most recent binding (Go map overwrite semantics). -/
def parseManifestGo (acc : List (List Char × List Char)) :
    List (List Char) → Except Err (List (List Char × List Char))
  | [] => .ok acc
  | line :: rest =>
    match splitOn tab (dropCR line) with
    | [d, p] => parseManifestGo ((p, d) :: acc) rest
    | es => .error (.manifestFormat es.length)

/-- getReadCloser: opens the package file (one handle opened), scans the
tape for the first entry named fn; on a miss it returns the error without
closing the file, on a hit the open handle is handed to the caller.  The
two Nat components count handles opened and closed inside the call. -/
def getReadCloserRC (ar : Archive) (fn : List Char) :
    Except Err (List Char) × Nat × Nat :=
  match ar.find? (fun e => e.name == fn) with
  | some e => (.ok e.body, 1, 0)
  | none => (.error (.notFound fn), 1, 0)

/-- verifyManifestIntegrity: extract the manifest and signature readers,
run keyring.Verify, and only on success Close both readers.  Component
order of the result: outcome, handles opened, handles closed, events. -/
def verifyManifestIntegrity (verify : List Char → List Char → Bool) (p : List Char)
    (ar : Archive) : Except Err Unit × Nat × Nat × List Event :=
  let man := getReadCloserRC ar mfName
  match man.1 with
  | .error e => (.error (.wrap "getting manifest reader" e), man.2.1, man.2.2, [])
  | .ok manB =>
    let sig := getReadCloserRC ar sigName
    match sig.1 with
    | .error e =>
      (.error (.wrap "getting manifest reader" e), man.2.1 + sig.2.1, man.2.2 + sig.2.2, [])
    | .ok sigB =>
      if verify manB sigB then
        (.ok (), man.2.1 + sig.2.1, man.2.2 + sig.2.2 + 2, [.trustCheck p, .trustOK p])
      else
        (.error (.wrap "verifying manifest" .verifyFail), man.2.1 + sig.2.1,
          man.2.2 + sig.2.2, [.trustCheck p])

/-- The tar-traversal loop of verifyPkgContents: skip the two control
entries and directories; an entry absent from the map is an extra-file
error, ending the scan; otherwise its digest is computed (a digest event)
and compared with the recorded value. -/
def checkEntries (hash : List Char → List Char) (p : List Char)
    (cs : List (List Char × List Char)) : List TarEntry → Except Err Unit × List Event
  | [] => (.ok (), [])
  | e :: rest =>
    if e.name == mfName || e.name == sigName then checkEntries hash p cs rest
    else if e.isDir then checkEntries hash p cs rest
    else
      match List.lookup e.name cs with
      | none => (.error (.extraFile e.name), [])
      | some sha =>
        if sha == hash e.body then
          ((checkEntries hash p cs rest).1, .digest p e.name :: (checkEntries hash p cs rest).2)
        else (.error (.checksumIncorrect e.name), [.digest p e.name])

/-- verifyPkgContents: read the manifest entry, scan it line by line into
the path-to-digest map (a format error returns before the reader is
closed), close the manifest reader, reopen the package file (never closed
on any path) and traverse its entries. -/
def verifyPkgContents (hash : List Char → List Char) (p : List Char)
    (ar : Archive) : Except Err Unit × Nat × Nat × List Event :=
  let man := getReadCloserRC ar mfName
  match man.1 with
  | .error e => (.error (.wrap "getting manifest reader" e), man.2.1, man.2.2, [])
  | .ok manB =>
    match parseManifestGo [] (scanLines manB) with
    | .error e => (.error e, man.2.1, man.2.2, [])
    | .ok cs =>
      ((checkEntries hash p cs ar).1, man.2.1 + 1, man.2.2 + 1, (checkEntries hash p cs ar).2)

/-- download loop: for each meta in order, http.Get its URL (the response
status code is never inspected), create the cache file and copy the body
into it, then close the response body; any failure aborts the batch.  The
accumulator is the set of cache files written, most recent first. -/
def downloadGo (env : Env) (acc : List (List Char × Archive)) :
    List Meta → Except Err (List (List Char × Archive)) × List Event
  | [] => (.ok acc, [])
  | m :: rest =>
    match env.http m.url with
    | none => (.error (.wrap "http get" .transport), [.httpGet m.url])
    | some resp =>
      if !env.createOK m.pkg then (.error (.wrap "creating" .createErr), [.httpGet m.url])
      else if !env.copyOK m.pkg then
        (.error (.wrap "copy to disk" .copyErr), [.httpGet m.url])
      else if !env.closeBodyOK m.pkg then
        (.error (.wrap "closing resp body" .closeBody), [.httpGet m.url, .fetched m.pkg])
      else
        ((downloadGo env ((m.pkg, resp.body) :: acc) rest).1,
          .httpGet m.url :: .fetched m.pkg :: (downloadGo env ((m.pkg, resp.body) :: acc) rest).2)

def download (env : Env) (ms : List Meta) :
    Except Err (List (List Char × Archive)) × List Event :=
  downloadGo env [] ms

/-- The per-package half of Install: verify manifest trust, then verify
contents, for each meta in order, aborting on the first failure. -/
def installLoop (env : Env) (cm : List (List Char × Archive)) :
    List Meta → Except Err Unit × List Event
  | [] => (.ok (), [])
  | m :: rest =>
    let tv := verifyManifestIntegrity env.verify m.pkg ((List.lookup m.pkg cm).getD [])
    match tv.1 with
    | .error e => (.error (.wrap "verifying pkg integrity" e), tv.2.2.2)
    | .ok _ =>
      let cv := verifyPkgContents env.hashHex m.pkg ((List.lookup m.pkg cm).getD [])
      match cv.1 with
      | .error e => (.error (.wrap "verifying pkg contents" e), tv.2.2.2 ++ cv.2.2.2)
      | .ok _ =>
        ((installLoop env cm rest).1, tv.2.2.2 ++ cv.2.2.2 ++ (installLoop env cm rest).2)

/-- Install: load the available db, resolve installability, ensure the
cache directory, download all archives, then per package verify trust and
contents; the function ends in the NYI error in every remaining case. -/
def Install (env : Env) (pkgs : List (List Char)) : Except Err Unit × List Event :=
  if !env.loadOK then (.error (.wrap "loading available db" .loadAvail), [])
  else
    match env.installable pkgs with
    | .error _ => (.error (.wrap "checking ability to install" .notInstallable), [])
    | .ok ms =>
      if !env.cacheExists && !env.mkdirOK then
        (.error (.wrap "creating non-existent cache dir" .mkdirFail), [])
      else if !env.cacheIsDir then (.error .notDirErr, [])
      else
        match (download env ms).1 with
        | .error e => (.error (.wrap "downloading" e), (download env ms).2)
        | .ok cm =>
          match (installLoop env cm ms).1 with
          | .error e => (.error e, (download env ms).2 ++ (installLoop env cm ms).2)
          | .ok _ => (.error .nyi, (download env ms).2 ++ (installLoop env cm ms).2)

/-- An archive entry that the content-verification loop passes over
without failing: a control entry, a directory, or a declared entry whose
recorded digest matches its computed digest. -/
def entryPasses (hash : List Char → List Char) (cs : List (List Char × List Char))
    (e : TarEntry) : Bool :=
  e.name == mfName || e.name == sigName || e.isDir ||
    (match List.lookup e.name cs with
     | some sha => sha == hash e.body
     | none => false)

/-- The fetch of one meta succeeds end to end. -/
def fetchOK (env : Env) (m : Meta) : Bool :=
  (env.http m.url).isSome && env.createOK m.pkg && env.copyOK m.pkg && env.closeBodyOK m.pkg

/-- Package ids whose trust verification has succeeded by the end of the
event list, starting from seen. -/
def updSeen (seen : List (List Char)) : List Event → List (List Char)
  | [] => seen
  | .trustOK p :: rest => updSeen (p :: seen) rest
  | _ :: rest => updSeen seen rest

/-- Every content-digest computation in the event list is preceded by a
successful trust verification of the same package (seen collects the
packages already trusted). -/
def goodTrace (seen : List (List Char)) : List Event → Bool
  | [] => true
  | .trustOK p :: rest => goodTrace (p :: seen) rest
  | .digest p _ :: rest => seen.contains p && goodTrace seen rest
  | _ :: rest => goodTrace seen rest

/-- Events that neither mark a trust success nor a digest computation. -/
def benign : Event → Bool
  | .trustOK _ => false
  | .digest _ _ => false
  | _ => true

/-- Number of content-digest computations recorded for package p. -/
def countDigests (p : List Char) (tr : List Event) : Nat :=
  tr.countP (fun e =>
    match e with
    | .digest q _ => q == p
    | _ => false)

/-- Number of commit events in a trace. -/
def countCommits (tr : List Event) : Nat :=
  tr.countP (fun e =>
    match e with
    | .commit _ => true
    | _ => false)

/-! Concrete fixtures used as witnesses and counterexamples. -/

def mfBody : List Char := str "aa\tbin/foo\n"

def mfE : TarEntry := ⟨mfName, false, mfBody⟩

def sigE : TarEntry := ⟨sigName, false, str "sig"⟩

def fooE : TarEntry := ⟨str "bin/foo", false, str "good"⟩

def barE : TarEntry := ⟨str "bin/bar", false, str "whatever"⟩

def fooBadE : TarEntry := ⟨str "bin/foo", false, str "evil"⟩

/-- A concrete stand-in for the SHA-256 hex digest: the bytes of fooE hash
to the digest recorded in mfBody, everything else to a different value. -/
def hashW : List Char → List Char := fun b => if b == str "good" then str "aa" else str "bb"

def arOK : Archive := [mfE, sigE, fooE]

def arC1 : Archive := [mfE, sigE]

def arC6 : Archive := [mfE, sigE, fooE, barE]

def arC7 : Archive := [mfE, sigE, fooBadE]

def envBase : Env where
  loadOK := true
  installable := fun pkgs => .ok (pkgs.map (fun p => ⟨p, p⟩))
  cacheExists := true
  mkdirOK := true
  cacheIsDir := true
  http := fun _ => some ⟨200, arOK⟩
  createOK := fun _ => true
  copyOK := fun _ => true
  closeBodyOK := fun _ => true
  verify := fun _ _ => true
  hashHex := hashW

def envW : Env := { envBase with verify := fun _ _ => false }

def env4 : Env := { envBase with http := fun _ => some ⟨404, []⟩ }

def metas4 : List Meta := [⟨str "a-1.0", str "ua"⟩, ⟨str "b-1.0", str "ub"⟩]

def mA : Meta := ⟨str "a-1.0", str "ua"⟩

def mB : Meta := ⟨str "b-1.0", str "ub"⟩

def mC : Meta := ⟨str "c-1.0", str "uc"⟩

/-- Transport succeeds only for the URL of mA: fetching mB hits a
transport error. -/
def envC4w : Env :=
  { envBase with http := fun u => if u == str "ua" then some ⟨200, arOK⟩ else none }

/-! Trace infrastructure lemmas. -/

theorem updSeen_append (l1 l2 : List Event) :
    ∀ seen, updSeen seen (l1 ++ l2) = updSeen (updSeen seen l1) l2 := by
  induction l1 with
  | nil => intro seen; rfl
  | cons e rest ih =>
    intro seen
    cases e <;> simp [updSeen, ih]

theorem goodTrace_append (l1 l2 : List Event) :
    ∀ seen, goodTrace seen (l1 ++ l2) =
      (goodTrace seen l1 && goodTrace (updSeen seen l1) l2) := by
  induction l1 with
  | nil => intro seen; simp [goodTrace, updSeen]
  | cons e rest ih =>
    intro seen
    cases e <;> simp [goodTrace, updSeen, ih, Bool.and_assoc]

theorem benign_goodTrace (l : List Event) :
    ∀ seen, (∀ x ∈ l, benign x = true) →
      goodTrace seen l = true ∧ updSeen seen l = seen := by
  induction l with
  | nil => intro seen _; exact ⟨rfl, rfl⟩
  | cons e rest ih =>
    intro seen h
    have he := h e (List.mem_cons_self e rest)
    have hr := fun x hx => h x (List.mem_cons_of_mem e hx)
    obtain ⟨h1, h2⟩ := ih seen hr
    cases e with
    | trustOK p => simp [benign] at he
    | digest p n => simp [benign] at he
    | httpGet u => exact ⟨by simpa [goodTrace] using h1, by simpa [updSeen] using h2⟩
    | fetched p => exact ⟨by simpa [goodTrace] using h1, by simpa [updSeen] using h2⟩
    | trustCheck p => exact ⟨by simpa [goodTrace] using h1, by simpa [updSeen] using h2⟩
    | commit p => exact ⟨by simpa [goodTrace] using h1, by simpa [updSeen] using h2⟩

theorem digestOnly_goodTrace (p : List Char) (l : List Event) :
    ∀ seen, (∀ x ∈ l, ∃ n, x = .digest p n) → seen.contains p = true →
      goodTrace seen l = true ∧ updSeen seen l = seen := by
  induction l with
  | nil => intro seen _ _; exact ⟨rfl, rfl⟩
  | cons e rest ih =>
    intro seen h hc
    obtain ⟨n, rfl⟩ := h e (List.mem_cons_self e rest)
    obtain ⟨h1, h2⟩ := ih seen (fun x hx => h x (List.mem_cons_of_mem _ hx)) hc
    have hm : p ∈ seen := by simpa using hc
    exact ⟨by simp [goodTrace, hc, h1, hm], by simpa [updSeen] using h2⟩

theorem mem_downloadGo (env : Env) :
    ∀ (ms : List Meta) (acc : List (List Char × Archive)) (x : Event),
      x ∈ (downloadGo env acc ms).2 →
      (∃ u, x = .httpGet u) ∨ (∃ q, x = .fetched q) := by
  intro ms
  induction ms with
  | nil => intro acc x hx; simp [downloadGo] at hx
  | cons m rest ih =>
    intro acc x hx
    simp only [downloadGo] at hx
    split at hx
    · simp at hx; exact Or.inl ⟨m.url, hx⟩
    · split at hx
      · simp at hx; exact Or.inl ⟨m.url, hx⟩
      · split at hx
        · simp at hx; exact Or.inl ⟨m.url, hx⟩
        · split at hx
          · simp at hx
            rcases hx with rfl | rfl
            · exact Or.inl ⟨m.url, rfl⟩
            · exact Or.inr ⟨m.pkg, rfl⟩
          · simp at hx
            rcases hx with rfl | rfl | hx
            · exact Or.inl ⟨m.url, rfl⟩
            · exact Or.inr ⟨m.pkg, rfl⟩
            · exact ih _ x hx

theorem vmi_shape (v : List Char → List Char → Bool) (p : List Char) (ar : Archive) :
    ((verifyManifestIntegrity v p ar).1 = .ok () ∧
      (verifyManifestIntegrity v p ar).2.2.2 = [Event.trustCheck p, Event.trustOK p]) ∨
    ((∃ e, (verifyManifestIntegrity v p ar).1 = .error e) ∧
      ((verifyManifestIntegrity v p ar).2.2.2 = [] ∨
        (verifyManifestIntegrity v p ar).2.2.2 = [Event.trustCheck p])) := by
  simp only [verifyManifestIntegrity]
  rcases h1 : (getReadCloserRC ar mfName).1 with e | manB
  · exact Or.inr ⟨⟨_, rfl⟩, Or.inl rfl⟩
  · rcases h2 : (getReadCloserRC ar sigName).1 with e | sigB
    · exact Or.inr ⟨⟨_, rfl⟩, Or.inl rfl⟩
    · dsimp only
      by_cases hv : v manB sigB = true
      · rw [if_pos hv]
        exact Or.inl ⟨rfl, rfl⟩
      · rw [if_neg hv]
        exact Or.inr ⟨⟨_, rfl⟩, Or.inr rfl⟩

theorem mem_checkEntries (hash : List Char → List Char) (p : List Char)
    (cs : List (List Char × List Char)) :
    ∀ (es : List TarEntry) (x : Event),
      x ∈ (checkEntries hash p cs es).2 → ∃ n, x = .digest p n := by
  intro es
  induction es with
  | nil => intro x hx; simp [checkEntries] at hx
  | cons e rest ih =>
    intro x hx
    simp only [checkEntries] at hx
    split at hx
    · exact ih x hx
    · split at hx
      · exact ih x hx
      · split at hx
        · simp at hx
        · split at hx
          · simp at hx
            rcases hx with rfl | hx
            · exact ⟨e.name, rfl⟩
            · exact ih x hx
          · simp at hx
            subst hx
            exact ⟨e.name, rfl⟩

theorem mem_vpc (hash : List Char → List Char) (p : List Char) (ar : Archive) (x : Event) :
    x ∈ (verifyPkgContents hash p ar).2.2.2 → ∃ n, x = .digest p n := by
  intro hx
  simp only [verifyPkgContents] at hx
  split at hx
  · simp at hx
  · split at hx
    · simp at hx
    · exact mem_checkEntries hash p _ ar x hx

theorem installLoop_goodTrace (env : Env) (cm : List (List Char × Archive)) :
    ∀ (ms : List Meta) (seen : List (List Char)),
      goodTrace seen (installLoop env cm ms).2 = true := by
  intro ms
  induction ms with
  | nil => intro seen; rfl
  | cons m rest ih =>
    intro seen
    simp only [installLoop]
    rcases vmi_shape env.verify m.pkg ((List.lookup m.pkg cm).getD []) with
      ⟨hok, hev⟩ | ⟨⟨e, herr⟩, hev⟩
    · rw [hok]
      have hcont : (m.pkg :: seen).contains m.pkg = true := by simp
      have hdig := fun x hx =>
        mem_vpc env.hashHex m.pkg ((List.lookup m.pkg cm).getD []) x hx
      obtain ⟨hgd, hud⟩ := digestOnly_goodTrace m.pkg _ (m.pkg :: seen) hdig hcont
      rcases hc : (verifyPkgContents env.hashHex m.pkg ((List.lookup m.pkg cm).getD [])).1 with
        e2 | u2
      · simp only [goodTrace_append, hev]
        simp [goodTrace, updSeen, hgd]
      · simp only [goodTrace_append, updSeen_append, hev]
        simp [goodTrace, updSeen, hgd, hud, ih]
    · rw [herr]
      rcases hev with hev | hev <;> simp [hev, goodTrace]

theorem download_benign (env : Env) (ms : List Meta) :
    ∀ x ∈ (download env ms).2, benign x = true := by
  intro x hx
  rcases mem_downloadGo env ms [] x hx with ⟨u, rfl⟩ | ⟨q, rfl⟩ <;> rfl

theorem download_no_commit (env : Env) (ms : List Meta) (q : List Char) :
    Event.commit q ∉ (download env ms).2 := by
  intro h
  rcases mem_downloadGo env ms [] _ h with ⟨u, hu⟩ | ⟨r, hr⟩
  · exact Event.noConfusion hu
  · exact Event.noConfusion hr

theorem dl_goodTrace (env : Env) (ms : List Meta) :
    goodTrace [] (download env ms).2 = true :=
  (benign_goodTrace _ [] (download_benign env ms)).1

theorem dl_loop_goodTrace (env : Env) (ms : List Meta) (cm : List (List Char × Archive)) :
    goodTrace [] ((download env ms).2 ++ (installLoop env cm ms).2) = true := by
  obtain ⟨hg, hu⟩ := benign_goodTrace _ ([] : List (List Char)) (download_benign env ms)
  simp [goodTrace_append, hg, hu, installLoop_goodTrace]

theorem install_goodTrace (env : Env) (pkgs : List (List Char)) :
    goodTrace [] (Install env pkgs).2 = true := by
  simp only [Install]
  split
  · rfl
  · split
    · rfl
    · split
      · rfl
      · split
        · rfl
        · split
          · exact dl_goodTrace env _
          · split
            · exact dl_loop_goodTrace env _ _
            · exact dl_loop_goodTrace env _ _

theorem goodTrace_zero :
    ∀ (tr : List Event) (seen : List (List Char)) (p : List Char),
      goodTrace seen tr = true → Event.trustOK p ∉ tr → p ∉ seen →
      countDigests p tr = 0 := by
  intro tr
  induction tr with
  | nil => intro seen p _ _ _; rfl
  | cons e rest ih =>
    intro seen p hg hn hc
    have hn2 : Event.trustOK p ∉ rest := fun h => hn (List.mem_cons_of_mem _ h)
    cases e with
    | trustOK q =>
      have hpq : p ≠ q := by
        intro h
        exact hn (by rw [h]; exact List.mem_cons_self _ _)
      have hg2 : goodTrace (q :: seen) rest = true := by simpa [goodTrace] using hg
      have hc2 : p ∉ q :: seen := by simp [hpq, hc]
      have := ih (q :: seen) p hg2 hn2 hc2
      simpa [countDigests, List.countP_cons] using this
    | digest q n =>
      have hh : q ∈ seen ∧ goodTrace seen rest = true := by
        simpa [goodTrace, Bool.and_eq_true] using hg
      have hq : (q == p) = false := by
        rw [beq_eq_false_iff_ne]
        intro h
        exact hc (h ▸ hh.1)
      have := ih seen p hh.2 hn2 hc
      simpa [countDigests, List.countP_cons, hq] using this
    | httpGet u =>
      have hg2 : goodTrace seen rest = true := by simpa [goodTrace] using hg
      simpa [countDigests, List.countP_cons] using ih seen p hg2 hn2 hc
    | fetched q =>
      have hg2 : goodTrace seen rest = true := by simpa [goodTrace] using hg
      simpa [countDigests, List.countP_cons] using ih seen p hg2 hn2 hc
    | trustCheck q =>
      have hg2 : goodTrace seen rest = true := by simpa [goodTrace] using hg
      simpa [countDigests, List.countP_cons] using ih seen p hg2 hn2 hc
    | commit q =>
      have hg2 : goodTrace seen rest = true := by simpa [goodTrace] using hg
      simpa [countDigests, List.countP_cons] using ih seen p hg2 hn2 hc

theorem installLoop_no_commit (env : Env) (cm : List (List Char × Archive)) :
    ∀ (ms : List Meta) (q : List Char), Event.commit q ∉ (installLoop env cm ms).2 := by
  intro ms
  induction ms with
  | nil => intro q h; simp [installLoop] at h
  | cons m rest ih =>
    intro q h
    simp only [installLoop] at h
    rcases vmi_shape env.verify m.pkg ((List.lookup m.pkg cm).getD []) with
      ⟨hok, hev⟩ | ⟨⟨e, herr⟩, hev⟩
    · rw [hok] at h
      rcases hc : (verifyPkgContents env.hashHex m.pkg ((List.lookup m.pkg cm).getD [])).1 with
        e2 | u2
      · rw [hc] at h
        simp only [List.mem_append] at h
        rcases h with h | h
        · rw [hev] at h; simp at h
        · obtain ⟨n, hn⟩ := mem_vpc env.hashHex m.pkg _ _ h
          cases hn
      · rw [hc] at h
        simp only [List.mem_append] at h
        rcases h with (h | h) | h
        · rw [hev] at h; simp at h
        · obtain ⟨n, hn⟩ := mem_vpc env.hashHex m.pkg _ _ h
          cases hn
        · exact ih q h
    · rw [herr] at h
      rcases hev with hev | hev <;> rw [hev] at h <;> simp at h

theorem install_no_commit (env : Env) (pkgs : List (List Char)) (q : List Char) :
    Event.commit q ∉ (Install env pkgs).2 := by
  simp only [Install]
  split
  · simp
  · split
    · simp
    · split
      · simp
      · split
        · simp
        · split
          · exact download_no_commit env _ q
          · split <;>
              · intro h
                simp only [List.mem_append] at h
                rcases h with h | h
                · exact download_no_commit env _ q h
                · exact installLoop_no_commit env _ _ q h

theorem install_no_commit_count (env : Env) (pkgs : List (List Char)) :
    countCommits (Install env pkgs).2 = 0 := by
  rw [countCommits, List.countP_eq_zero]
  intro x hx
  cases x with
  | commit q => exact absurd hx (install_no_commit env pkgs q)
  | httpGet u => simp
  | fetched q => simp
  | trustCheck q => simp
  | trustOK q => simp
  | digest q n => simp

theorem install_always_error (env : Env) (pkgs : List (List Char)) :
    ∃ e, (Install env pkgs).1 = .error e := by
  simp only [Install]
  split
  · exact ⟨_, rfl⟩
  · split
    · exact ⟨_, rfl⟩
    · split
      · exact ⟨_, rfl⟩
      · split
        · exact ⟨_, rfl⟩
        · split
          · exact ⟨_, rfl⟩
          · split
            · exact ⟨_, rfl⟩
            · exact ⟨_, rfl⟩

/-! Evaluation lemmas for the content-verification loop. -/

theorem checkEntries_cons_skip (hash : List Char → List Char) (p : List Char)
    (cs : List (List Char × List Char)) (e : TarEntry)
    (h1 : (e.name == mfName || e.name == sigName) = true) :
    ∀ L, checkEntries hash p cs (e :: L) = checkEntries hash p cs L := by
  intro L
  simp [checkEntries, h1]

theorem checkEntries_cons_dir (hash : List Char → List Char) (p : List Char)
    (cs : List (List Char × List Char)) (e : TarEntry)
    (h1 : (e.name == mfName || e.name == sigName) = false) (h2 : e.isDir = true) :
    ∀ L, checkEntries hash p cs (e :: L) = checkEntries hash p cs L := by
  intro L
  simp [checkEntries, h1, h2]

theorem checkEntries_cons_hit (hash : List Char → List Char) (p : List Char)
    (cs : List (List Char × List Char)) (e : TarEntry) (sha : List Char)
    (h1 : (e.name == mfName || e.name == sigName) = false) (h2 : e.isDir = false)
    (h3 : List.lookup e.name cs = some sha) (h4 : (sha == hash e.body) = true) :
    ∀ L, checkEntries hash p cs (e :: L) =
      ((checkEntries hash p cs L).1, .digest p e.name :: (checkEntries hash p cs L).2) := by
  intro L
  simp [checkEntries, h1, h2, h3, h4]

theorem checkEntries_cons_miss (hash : List Char → List Char) (p : List Char)
    (cs : List (List Char × List Char)) (e : TarEntry)
    (h1 : (e.name == mfName || e.name == sigName) = false) (h2 : e.isDir = false)
    (h3 : List.lookup e.name cs = none) :
    ∀ L, checkEntries hash p cs (e :: L) = (.error (.extraFile e.name), []) := by
  intro L
  simp [checkEntries, h1, h2, h3]

theorem checkEntries_cons_bad (hash : List Char → List Char) (p : List Char)
    (cs : List (List Char × List Char)) (e : TarEntry) (sha : List Char)
    (h1 : (e.name == mfName || e.name == sigName) = false) (h2 : e.isDir = false)
    (h3 : List.lookup e.name cs = some sha) (h4 : (sha == hash e.body) = false) :
    ∀ L, checkEntries hash p cs (e :: L) =
      (.error (.checksumIncorrect e.name), [.digest p e.name]) := by
  intro L
  simp [checkEntries, h1, h2, h3, h4]

theorem checkEntries_prefix (hash : List Char → List Char) (p : List Char)
    (cs : List (List Char × List Char)) :
    ∀ (pre l : List TarEntry), (∀ x ∈ pre, entryPasses hash cs x = true) →
      (checkEntries hash p cs (pre ++ l)).1 = (checkEntries hash p cs l).1 ∧
      (checkEntries hash p cs (pre ++ l)).2 =
        (checkEntries hash p cs pre).2 ++ (checkEntries hash p cs l).2 := by
  intro pre
  induction pre with
  | nil => intro l _; exact ⟨rfl, by simp [checkEntries]⟩
  | cons e rest ih =>
    intro l h
    have he := h e (List.mem_cons_self e rest)
    obtain ⟨ih1, ih2⟩ := ih l (fun x hx => h x (List.mem_cons_of_mem e hx))
    rw [List.cons_append]
    by_cases h1 : (e.name == mfName || e.name == sigName) = true
    · simp only [checkEntries_cons_skip hash p cs e h1]
      exact ⟨ih1, ih2⟩
    · have h1f : (e.name == mfName || e.name == sigName) = false :=
        Bool.eq_false_iff.mpr h1
      by_cases h2 : e.isDir = true
      · simp only [checkEntries_cons_dir hash p cs e h1f h2]
        exact ⟨ih1, ih2⟩
      · have h2f : e.isDir = false := Bool.eq_false_iff.mpr h2
        simp only [entryPasses, h1f, h2f, Bool.false_or] at he
        rcases h3 : List.lookup e.name cs with _ | sha
        · rw [h3] at he; simp at he
        · rw [h3] at he
          simp only [checkEntries_cons_hit hash p cs e sha h1f h2f h3 he]
          simp [ih1, ih2]

/-- The manifest-extraction under a successful scan for the entry. -/
theorem getRC_found (ar : Archive) (fn : List Char) (me : TarEntry)
    (h : ar.find? (fun e => e.name == fn) = some me) :
    getReadCloserRC ar fn = (.ok me.body, 1, 0) := by
  simp [getReadCloserRC, h]

theorem vpc_eval (hash : List Char → List Char) (p : List Char) (ar : Archive)
    (me : TarEntry) (cs : List (List Char × List Char))
    (h1 : ar.find? (fun e => e.name == mfName) = some me)
    (h2 : parseManifestGo [] (scanLines me.body) = .ok cs) :
    verifyPkgContents hash p ar =
      ((checkEntries hash p cs ar).1, 2, 1, (checkEntries hash p cs ar).2) := by
  simp [verifyPkgContents, getRC_found ar mfName me h1, h2]

theorem vpc_parse_error (hash : List Char → List Char) (p : List Char) (ar : Archive)
    (me : TarEntry) (e : Err)
    (h1 : ar.find? (fun x => x.name == mfName) = some me)
    (h2 : parseManifestGo [] (scanLines me.body) = .error e) :
    verifyPkgContents hash p ar = (.error e, 1, 0, []) := by
  simp [verifyPkgContents, getRC_found ar mfName me h1, h2]

theorem installLoop_ok (env : Env) (cm : List (List Char × Archive)) :
    ∀ ms : List Meta,
      (∀ m ∈ ms,
        (verifyManifestIntegrity env.verify m.pkg ((List.lookup m.pkg cm).getD [])).1 = .ok () ∧
        (verifyPkgContents env.hashHex m.pkg ((List.lookup m.pkg cm).getD [])).1 = .ok ()) →
      (installLoop env cm ms).1 = .ok () := by
  intro ms
  induction ms with
  | nil => intro _; rfl
  | cons m rest ih =>
    intro h
    obtain ⟨h1, h2⟩ := h m (List.mem_cons_self m rest)
    simp only [installLoop, h1, h2]
    exact ih (fun x hx => h x (List.mem_cons_of_mem m hx))

/-! Fail-fast structure of the download loop. -/

theorem splitOn_ne_nil (sep : Char) : ∀ s : List Char, splitOn sep s ≠ [] := by
  intro s
  cases s with
  | nil => simp [splitOn]
  | cons c rest =>
    simp only [splitOn]
    rcases h : splitOn sep rest with _ | ⟨t, ts⟩ <;> by_cases hc : c = sep <;> simp [hc]

theorem splitOn_concat_sep (sep : Char) :
    ∀ t : List Char, splitOn sep (t ++ [sep]) = splitOn sep t ++ [[]] := by
  intro t
  induction t with
  | nil => simp [splitOn]
  | cons c t ih =>
    have e1 : splitOn sep ((c :: t) ++ [sep]) =
        match splitOn sep (t ++ [sep]) with
        | [] => [[]]
        | u :: us => if c = sep then [] :: u :: us else (c :: u) :: us := rfl
    have e2 : splitOn sep (c :: t) =
        match splitOn sep t with
        | [] => [[]]
        | u :: us => if c = sep then [] :: u :: us else (c :: u) :: us := rfl
    rw [e1, e2, ih]
    rcases h : splitOn sep t with _ | ⟨u, us⟩
    · exact absurd h (splitOn_ne_nil sep t)
    · by_cases hc : c = sep <;> simp [hc]

theorem scanLines_trailing (t : List Char) (h0 : t ≠ []) (h1 : t.getLast? ≠ some nl) :
    scanLines (t ++ [nl]) = scanLines t := by
  have hne : t ++ [nl] ≠ [] := by simp
  have hl : (t ++ [nl]).getLast? = some nl := by simp
  rw [scanLines, scanLines, if_neg hne, if_neg h0, if_pos hl, if_neg h1,
    splitOn_concat_sep]
  simp

theorem parse_fails :
    ∀ (lines : List (List Char)) (acc : List (List Char × List Char)),
      (∃ l ∈ lines, (splitOn tab (dropCR l)).length ≠ 2) →
      ∃ n, parseManifestGo acc lines = .error (.manifestFormat n) := by
  intro lines
  induction lines with
  | nil => intro acc h; rcases h with ⟨l, hl, _⟩; simp at hl
  | cons line rest ih =>
    intro acc h
    rcases hsp : splitOn tab (dropCR line) with _ | ⟨d, _ | ⟨p2, _ | ⟨x, tl⟩⟩⟩
    · exact ⟨0, by simp [parseManifestGo, hsp]⟩
    · exact ⟨1, by simp [parseManifestGo, hsp]⟩
    · rcases h with ⟨l, hl, hb⟩
      rcases List.mem_cons.mp hl with rfl | hl2
      · rw [hsp] at hb; simp at hb
      · obtain ⟨n, hn⟩ := ih ((p2, d) :: acc) ⟨l, hl2, hb⟩
        exact ⟨n, by simp [parseManifestGo, hsp, hn]⟩
    · exact ⟨(d :: p2 :: x :: tl).length, by simp [parseManifestGo, hsp]⟩

theorem downloadGo_failfast (env : Env) (m : Meta)
    (hf : ((env.http m.url).isNone || !env.createOK m.pkg || !env.copyOK m.pkg) = true) :
    ∀ (pre rest : List Meta) (acc : List (List Char × Archive)),
      (∀ x ∈ pre, fetchOK env x = true) →
      downloadGo env acc (pre ++ m :: rest) = downloadGo env acc (pre ++ [m]) ∧
      ∃ e, (downloadGo env acc (pre ++ m :: rest)).1 = .error e := by
  intro pre
  induction pre with
  | nil =>
    intro rest acc _
    rcases hh : env.http m.url with _ | resp
    · exact ⟨by simp [downloadGo, hh],
        ⟨Err.wrap "http get" Err.transport, by simp [downloadGo, hh]⟩⟩
    · rw [Bool.or_eq_true, Bool.or_eq_true] at hf
      rcases hf with (hn | hc) | hcp
      · rw [hh] at hn; simp at hn
      · have hc2 : env.createOK m.pkg = false := by simpa using hc
        exact ⟨by simp [downloadGo, hh, hc2],
          ⟨Err.wrap "creating" Err.createErr, by simp [downloadGo, hh, hc2]⟩⟩
      · by_cases hcr : env.createOK m.pkg = true
        · have hcp2 : env.copyOK m.pkg = false := by simpa using hcp
          exact ⟨by simp [downloadGo, hh, hcr, hcp2],
            ⟨Err.wrap "copy to disk" Err.copyErr, by simp [downloadGo, hh, hcr, hcp2]⟩⟩
        · have hc2 : env.createOK m.pkg = false := Bool.eq_false_iff.mpr hcr
          exact ⟨by simp [downloadGo, hh, hc2],
            ⟨Err.wrap "creating" Err.createErr, by simp [downloadGo, hh, hc2]⟩⟩
  | cons x pre ih =>
    intro rest acc hpre
    have hx := hpre x (List.mem_cons_self x pre)
    simp only [fetchOK, Bool.and_eq_true] at hx
    obtain ⟨⟨⟨hs, hcr⟩, hcp⟩, hcb⟩ := hx
    rcases hh : env.http x.url with _ | resp
    · rw [hh] at hs; simp at hs
    · obtain ⟨h1, h2⟩ := ih rest ((x.pkg, resp.body) :: acc)
        (fun y hy => hpre y (List.mem_cons_of_mem x hy))
      constructor
      · simp [downloadGo, hh, hcr, hcp, hcb, h1]
      · obtain ⟨e, he⟩ := h2
        exact ⟨e, by simp [downloadGo, hh, hcr, hcp, hcb, he]⟩

/-! The claims. -/

/-- C1: the spec requires that an archive lacking a content entry declared
in its manifest fail content verification with MissingDeclaredFile.  The
code has no such check: on the archive arC1, whose manifest declares
bin/foo but which contains no bin/foo entry (all other entries matching),
verifyPkgContents returns success with no digest computed. -/
theorem C1_missing_declared_file_accepted :
    verifyPkgContents hashW (str "foo-1.0") arC1 = (.ok (), 2, 1, []) := by decide

/-- C2: in every Install run, every content-digest computation for a
package is preceded by a successful trust verification of that package
(goodTrace), and for a package whose trust verification never succeeds,
the number of content-digest computations is zero. -/
theorem C2_trust_precedes_content (env : Env) (pkgs : List (List Char)) :
    goodTrace [] (Install env pkgs).2 = true ∧
    ∀ p, Event.trustOK p ∉ (Install env pkgs).2 →
      countDigests p (Install env pkgs).2 = 0 :=
  ⟨install_goodTrace env pkgs,
   fun p hp => goodTrace_zero _ [] p (install_goodTrace env pkgs) hp (by simp)⟩

/-- C2 witness: in the environment envW, whose keyring rejects every
signature, an Install run records no successful trust verification and
zero content-digest computations for the requested package. -/
theorem C2_witness :
    Event.trustOK (str "a-1.0") ∉ (Install envW [str "a-1.0"]).2 ∧
    countDigests (str "a-1.0") (Install envW [str "a-1.0"]).2 = 0 :=
  ⟨by decide, (C2_trust_precedes_content envW [str "a-1.0"]).2 (str "a-1.0") (by decide)⟩

/-- C3 counterexample: on a fully valid input (well-formed manifest,
matching archive, accepted signature) the pipeline does not reach a
Committing stage: Install ends in the NYI error and the complete event
trace contains no commit event. -/
theorem C3_counterexample :
    Install envBase [str "foo-1.0"] =
      (.error Err.nyi,
        [.httpGet (str "foo-1.0"), .fetched (str "foo-1.0"), .trustCheck (str "foo-1.0"),
          .trustOK (str "foo-1.0"), .digest (str "foo-1.0") (str "bin/foo")]) := by decide

/-- C3 (amended): for every valid input (resolution, cache setup and
fetch succeed, and both verification stages succeed for every package),
Install completes both verification stages and then returns the
not-yet-implemented error; no commit event ever occurs. -/
theorem C3_valid_triple_verifies_then_nyi (env : Env) (pkgs : List (List Char))
    (ms : List Meta) (cm : List (List Char × Archive)) (dlevs : List Event)
    (h1 : env.loadOK = true)
    (h2 : env.installable pkgs = .ok ms)
    (h3 : (env.cacheExists || env.mkdirOK) = true)
    (h4 : env.cacheIsDir = true)
    (h5 : download env ms = (.ok cm, dlevs))
    (h6 : ∀ m ∈ ms,
      (verifyManifestIntegrity env.verify m.pkg ((List.lookup m.pkg cm).getD [])).1 = .ok () ∧
      (verifyPkgContents env.hashHex m.pkg ((List.lookup m.pkg cm).getD [])).1 = .ok ()) :
    (Install env pkgs).1 = .error Err.nyi ∧
    countCommits (Install env pkgs).2 = 0 := by
  refine ⟨?_, install_no_commit_count env pkgs⟩
  have hloop := installLoop_ok env cm ms h6
  have hc1 : (!env.loadOK) = false := by rw [h1]; rfl
  have hc2 : (!env.cacheExists && !env.mkdirOK) = false := by rw [← Bool.not_or, h3]; rfl
  have hc3 : (!env.cacheIsDir) = false := by rw [h4]; rfl
  have hdl1 : (download env ms).1 = .ok cm := by rw [h5]
  simp [Install, hc1, hc2, hc3, h2, hdl1, hloop]

/-- C3 witness: the amended claim applied to the concrete valid
environment envBase. -/
theorem C3_witness :
    (Install envBase [str "foo-1.0"]).1 = .error Err.nyi ∧
    countCommits (Install envBase [str "foo-1.0"]).2 = 0 :=
  C3_valid_triple_verifies_then_nyi envBase [str "foo-1.0"]
    [⟨str "foo-1.0", str "foo-1.0"⟩] [(str "foo-1.0", arOK)]
    [.httpGet (str "foo-1.0"), .fetched (str "foo-1.0")]
    (by decide) (by decide) (by decide) (by decide) (by decide) (by decide)

/-- C4 counterexample: a non-success HTTP status does not abort the
batch.  In env4 every request answers with status 404; download succeeds,
caches the 404 response bodies, and fetches the second package after the
first received a 404. -/
theorem C4_counterexample :
    env4.http (str "ua") = some ⟨404, []⟩ ∧
    (download env4 metas4).1 = .ok [(str "b-1.0", []), (str "a-1.0", [])] ∧
    Event.fetched (str "b-1.0") ∈ (download env4 metas4).2 := by
  exact ⟨by decide, by decide, by decide⟩

/-- C4 (amended): a transport failure or a disk-write failure (create or
copy) for one package aborts the whole batch: download returns an error
and behaves as if the later packages were absent, so no later package is
fetched.  A non-success HTTP status is not detected (see the
counterexample). -/
theorem C4_transport_or_disk_failfast (env : Env) (m : Meta) (pre rest : List Meta)
    (hf : ((env.http m.url).isNone || !env.createOK m.pkg || !env.copyOK m.pkg) = true)
    (hpre : ∀ x ∈ pre, fetchOK env x = true) :
    download env (pre ++ m :: rest) = download env (pre ++ [m]) ∧
    ∃ e, (download env (pre ++ m :: rest)).1 = .error e :=
  downloadGo_failfast env m hf pre rest [] hpre

/-- C4 witness: in envC4w the second package hits a transport error;
the batch aborts and the third package is never fetched. -/
theorem C4_witness :
    download envC4w ([mA] ++ mB :: [mC]) = download envC4w ([mA] ++ [mB]) ∧
    ∃ e, (download envC4w ([mA] ++ mB :: [mC])).1 = .error e :=
  C4_transport_or_disk_failfast envC4w mB [mA] [mC] (by decide) (by decide)

/-- C5: the spec requires duplicate manifest paths to be a format error;
the code instead accepts the transcript and silently lets the last
occurrence win: on a transcript declaring path p twice (digests aa then
bb), parsing succeeds and the lookup for p yields bb. -/
theorem C5_duplicate_paths_last_wins :
    parseManifestGo [] (scanLines (str "aa\tp\nbb\tp\n")) =
      .ok [(str "p", str "bb"), (str "p", str "aa")] ∧
    List.lookup (str "p") [(str "p", str "bb"), (str "p", str "aa")] =
      some (str "bb") := by
  exact ⟨by decide, by decide⟩

/-- C6: an archive entry that is neither a control entry nor a directory
and whose name is not declared in the manifest makes content verification
fail with the extra-file (UndeclaredFile) error naming that entry; the
recorded digest events are exactly those of the entries before it
(scanning stops there), and no Install run ever commits. -/
theorem C6_undeclared_file_fails (hash : List Char → List Char) (p : List Char)
    (ar : Archive) (me e : TarEntry) (cs : List (List Char × List Char))
    (pre post : List TarEntry)
    (h1 : ar.find? (fun x => x.name == mfName) = some me)
    (h2 : parseManifestGo [] (scanLines me.body) = .ok cs)
    (h3 : ar = pre ++ e :: post)
    (h4 : ∀ x ∈ pre, entryPasses hash cs x = true)
    (h5 : (e.name == mfName || e.name == sigName) = false)
    (h6 : e.isDir = false)
    (h7 : List.lookup e.name cs = none) :
    ((verifyPkgContents hash p ar).1 = .error (Err.extraFile e.name) ∧
      (verifyPkgContents hash p ar).2.2.2 = (checkEntries hash p cs pre).2) ∧
    ∀ env pkgs, countCommits (Install env pkgs).2 = 0 := by
  have hv := vpc_eval hash p ar me cs h1 h2
  obtain ⟨hp1, hp2⟩ := checkEntries_prefix hash p cs pre (e :: post) h4
  have hmiss := checkEntries_cons_miss hash p cs e h5 h6 h7 post
  refine ⟨⟨?_, ?_⟩, fun env pkgs => install_no_commit_count env pkgs⟩
  · rw [hv]
    dsimp only
    rw [h3, hp1, hmiss]
  · rw [hv]
    dsimp only
    rw [h3, hp2, hmiss]
    simp

/-- C6 witness: the archive arC6 carries the undeclared entry bin/bar;
content verification fails with the extra-file error naming bin/bar. -/
theorem C6_witness :
    (verifyPkgContents hashW (str "foo-1.0") arC6).1 =
      .error (Err.extraFile (str "bin/bar")) :=
  ((C6_undeclared_file_fails hashW (str "foo-1.0") arC6 mfE barE
    [(str "bin/foo", str "aa")] [mfE, sigE, fooE] []
    (by decide) (by decide) (by decide) (by decide) (by decide) (by decide)
    (by decide)).1).1

/-- C7: a declared entry whose computed digest differs from the digest
recorded in the manifest makes content verification fail with the
checksum (ChecksumMismatch) error naming that entry; the digest of that
entry is the last one computed (fail immediately), and no Install run
ever commits. -/
theorem C7_checksum_mismatch_fails (hash : List Char → List Char) (p : List Char)
    (ar : Archive) (me e : TarEntry) (sha : List Char)
    (cs : List (List Char × List Char)) (pre post : List TarEntry)
    (h1 : ar.find? (fun x => x.name == mfName) = some me)
    (h2 : parseManifestGo [] (scanLines me.body) = .ok cs)
    (h3 : ar = pre ++ e :: post)
    (h4 : ∀ x ∈ pre, entryPasses hash cs x = true)
    (h5 : (e.name == mfName || e.name == sigName) = false)
    (h6 : e.isDir = false)
    (h7 : List.lookup e.name cs = some sha)
    (h8 : (sha == hash e.body) = false) :
    ((verifyPkgContents hash p ar).1 = .error (Err.checksumIncorrect e.name) ∧
      (verifyPkgContents hash p ar).2.2.2 =
        (checkEntries hash p cs pre).2 ++ [Event.digest p e.name]) ∧
    ∀ env pkgs, countCommits (Install env pkgs).2 = 0 := by
  have hv := vpc_eval hash p ar me cs h1 h2
  obtain ⟨hp1, hp2⟩ := checkEntries_prefix hash p cs pre (e :: post) h4
  have hbad := checkEntries_cons_bad hash p cs e sha h5 h6 h7 h8 post
  refine ⟨⟨?_, ?_⟩, fun env pkgs => install_no_commit_count env pkgs⟩
  · rw [hv]
    dsimp only
    rw [h3, hp1, hbad]
  · rw [hv]
    dsimp only
    rw [h3, hp2, hbad]

/-- C7 witness: in arC7 the declared entry bin/foo has mutated bytes, so
its computed digest differs from the recorded one; content verification
fails with the checksum error naming bin/foo. -/
theorem C7_witness :
    (verifyPkgContents hashW (str "foo-1.0") arC7).1 =
      .error (Err.checksumIncorrect (str "bin/foo")) :=
  ((C7_checksum_mismatch_fails hashW (str "foo-1.0") arC7 mfE fooBadE (str "aa")
    [(str "bin/foo", str "aa")] [mfE, sigE] []
    (by decide) (by decide) (by decide) (by decide) (by decide) (by decide)
    (by decide) (by decide)).1).1

/-- C8: manifest parsing is all-or-nothing.  Any line that does not split
into exactly two tab-separated fields fails the whole parse with a format
error; the newline terminating the final line produces no extra blank
line (a blank trailing line is tolerated); and when the parse fails,
verifyPkgContents returns that error with no entry scanned and no digest
computed — a partial manifest is never used. -/
theorem C8_manifest_parse_all_or_nothing :
    (∀ (lines : List (List Char)) (acc : List (List Char × List Char)),
      (∃ l ∈ lines, (splitOn tab (dropCR l)).length ≠ 2) →
      ∃ n, parseManifestGo acc lines = .error (.manifestFormat n)) ∧
    (∀ t : List Char, t ≠ [] → t.getLast? ≠ some nl →
      scanLines (t ++ [nl]) = scanLines t) ∧
    (∀ (hash : List Char → List Char) (p : List Char) (ar : Archive)
      (me : TarEntry) (e : Err),
      ar.find? (fun x => x.name == mfName) = some me →
      parseManifestGo [] (scanLines me.body) = .error e →
      verifyPkgContents hash p ar = (.error e, 1, 0, [])) :=
  ⟨parse_fails, scanLines_trailing,
   fun hash p ar me e h1 h2 => vpc_parse_error hash p ar me e h1 h2⟩

/-- C8 witness: a line without a tab fails the parse with a format
error. -/
theorem C8_witness :
    ∃ n, parseManifestGo [] [str "oops"] = .error (.manifestFormat n) :=
  C8_manifest_parse_all_or_nothing.1 [str "oops"] []
    ⟨str "oops", by decide, by decide⟩

/-- C9: the spec requires every byte-reader obtained from the archive to
be released on every exit path.  The code leaks them: when the signature
does not verify, verifyManifestIntegrity returns with both the manifest
and signature readers still open (2 opened, 0 closed), and when the
requested entry is absent, getReadCloser returns with the package file it
opened still open (1 opened, 0 closed). -/
theorem C9_reader_leak :
    verifyManifestIntegrity (fun _ _ => false) (str "foo-1.0") arC1 =
      (.error (.wrap "verifying manifest" .verifyFail), 2, 0,
        [.trustCheck (str "foo-1.0")]) ∧
    getReadCloserRC [] mfName = (.error (.notFound mfName), 1, 0) := by
  exact ⟨by decide, by decide⟩

/-- C10: Install returns an error on every input — even when every stage
succeeds it ends in the NYI error — and its event trace never contains a
commit event: no commit or installation is ever performed. -/
theorem C10_install_always_errors (env : Env) (pkgs : List (List Char)) :
    (∃ e, (Install env pkgs).1 = .error e) ∧
    countCommits (Install env pkgs).2 = 0 :=
  ⟨install_always_error env pkgs, install_no_commit_count env pkgs⟩
